import Mathlib

/-!
Verification of the circular doubly linked list with a sentinel head node
(`class Node` / `class DoubleList`).

The heap is modelled as an association list from addresses (`Nat`) to node
records; `0` plays the role of the null pointer and is never a valid address.
Pointer dereference is `hget`, which may fail (`Option`), field assignment is
`hset`, and `delete` is `hdel`.  Every C++ member function is translated
statement by statement; the scan loops of `removeEntry`, `traverseList` and
`cleanList` are given a fuel argument (one unit per allocated node plus one),
so that exhaustion of the fuel — impossible on valid lists — shows up as
`none`, exactly like a failing dereference.
-/

structure Node where
  prev : Nat
  next : Nat
  index : Int
  deriving DecidableEq, Repr

abbrev Heap := List (Nat × Node)

/-- Pointer dereference: look up an address in the heap. -/
def hget : Heap → Nat → Option Node
  | [], _ => none
  | (b, n) :: t, a => if b = a then some n else hget t a

/-- Field assignment: replace the node stored at an (allocated) address. -/
def hset : Heap → Nat → Node → Heap
  | [], _, _ => []
  | (b, m) :: t, a, n => if b = a then (b, n) :: t else (b, m) :: hset t a n

/-- `delete`: deallocate an address. -/
def hdel (h : Heap) (a : Nat) : Heap := h.filter (fun e => e.1 ≠ a)

def keysOf (h : Heap) : List Nat := h.map Prod.fst

/-- A `DoubleList` object: the heap it owns, the address of its sentinel
(`head` in the source) and a bump allocator giving fresh addresses. -/
structure DL where
  heap : Heap
  head : Nat
  nextAlloc : Nat
  deriving DecidableEq, Repr

def nodeAt (s : DL) (a : Nat) : Option Node := hget s.heap a

/-- `DoubleList::isEnd(entry) { return entry == head; }` -/
def isEnd (s : DL) (a : Nat) : Bool := a = s.head

/-- `DoubleList::isEmpty() { return head->next == head; }` -/
def isEmpty (s : DL) : Option Bool :=
  (nodeAt s s.head).map (fun hn => hn.next = s.head)

/-- `DoubleList::DoubleList()`: allocate the sentinel (`Node(-1)` by the
default argument) and link it to itself.  The sentinel lives at address 1. -/
def newList : DL :=
  { heap := [(1, { prev := 1, next := 1, index := -1 })], head := 1, nextAlloc := 2 }

/-- `DoubleList::list_add(Node* head, Node* entry)`:
`next = head->next; entry->next = next; entry->prev = head;`
`next->prev = entry; head->next = entry;` -/
def list_add (s : DL) (hd entry : Nat) : Option DL :=
  match nodeAt s hd with
  | none => none
  | some hn =>
    let nxt := hn.next
    match nodeAt s entry with
    | none => none
    | some en =>
      let h1 := hset s.heap entry { en with next := nxt, prev := hd }
      match hget h1 nxt with
      | none => none
      | some nn =>
        let h2 := hset h1 nxt { nn with prev := entry }
        match hget h2 hd with
        | none => none
        | some hn2 =>
          some { s with heap := hset h2 hd { hn2 with next := entry } }

/-- `DoubleList::list_delete(Node* prev, Node* entry)`:
`next = entry->next; prev->next = next; next->prev = prev;`
`entry->next = nullptr; entry->prev = nullptr; delete entry;` -/
def list_delete (s : DL) (prv entry : Nat) : Option DL :=
  match nodeAt s entry with
  | none => none
  | some en =>
    let nxt := en.next
    match hget s.heap prv with
    | none => none
    | some pn =>
      let h1 := hset s.heap prv { pn with next := nxt }
      match hget h1 nxt with
      | none => none
      | some nn =>
        let h2 := hset h1 nxt { nn with prev := prv }
        let h3 := hset h2 entry { en with next := 0, prev := 0 }
        some { s with heap := hdel h3 entry }

/-- `DoubleList::insertEntry(int index) { Node* e = new Node(index); list_add(head, e); }`
Allocation returns the fresh address `s.nextAlloc`; the `Node(int)` constructor
initialises both links to `nullptr`. -/
def insertEntry (s : DL) (idx : Int) : Option DL :=
  let a := s.nextAlloc
  let s1 : DL := { heap := (a, { prev := 0, next := 0, index := idx }) :: s.heap,
                   head := s.head, nextAlloc := a + 1 }
  list_add s1 s1.head a

/-- The scan loop of `DoubleList::removeEntry`.  The returned `Bool` records
whether the post-loop `isEnd(cur)` test fired, i.e. whether the
`"Cannot find index"` diagnostic was printed.  After a found-and-deleted
`break`, `cur` still holds the (now dangling) address of the removed node,
which differs from `head`, so no diagnostic is printed on that path. -/
def removeLoop (s : DL) (idx : Int) : Nat → Nat → Nat → Option (DL × Bool)
  | _, _, 0 => none
  | prv, cur, fuel + 1 =>
    if isEnd s cur then some (s, true)
    else
      match nodeAt s cur with
      | none => none
      | some n =>
        if n.index = idx then (list_delete s prv cur).map (fun s2 => (s2, false))
        else removeLoop s idx cur n.next fuel

/-- `DoubleList::removeEntry(int index)`:
`prev = head; cur = head->next;` then the scan loop, then the
not-found diagnostic when `isEnd(cur)`. -/
def removeEntry (s : DL) (idx : Int) : Option (DL × Bool) :=
  match nodeAt s s.head with
  | none => none
  | some hn => removeLoop s idx s.head hn.next (s.heap.length + 1)

/-- The loop body of `DoubleList::traverseList`, threading the (read-only)
state through and collecting the printed `index` values. -/
def traverseFrom : DL → Nat → Nat → Option (List Int × DL)
  | _, _, 0 => none
  | s, a, fuel + 1 =>
    if isEnd s a then some ([], s)
    else
      match nodeAt s a with
      | none => none
      | some n => (traverseFrom s n.next fuel).map (fun p => (n.index :: p.1, p.2))

/-- `DoubleList::traverseList()`: `each = head->next;` then print every
`index` until `isEnd(each)`.  Returns the printed values and the state the
loop finished in. -/
def traverseList (s : DL) : Option (List Int × DL) :=
  match nodeAt s s.head with
  | none => none
  | some hn => traverseFrom s hn.next (s.heap.length + 1)

/-- Just the enumerated values of a traversal. -/
def traverseVals (s : DL) : Option (List Int) := (traverseList s).map Prod.fst

/-- The `while (!isEnd(cur))` loop of `DoubleList::cleanList`: each iteration
re-reads `prev = head; cur = head->next` and deletes `cur`. -/
def cleanLoop : Nat → DL → Option DL
  | 0, _ => none
  | fuel + 1, s =>
    match nodeAt s s.head with
    | none => none
    | some hn =>
      if isEnd s hn.next then some s
      else
        match list_delete s s.head hn.next with
        | none => none
        | some s2 => cleanLoop fuel s2

/-- `DoubleList::cleanList()`: early return on `isEmpty()`, else the loop. -/
def cleanList (s : DL) : Option DL :=
  match isEmpty s with
  | none => none
  | some true => some s
  | some false => cleanLoop (s.heap.length + 1) s

/-!
## Representation invariant

`chain s p a l q b` says: starting at address `a`, with `p` the address of the
element one step back, following `next` pointers visits exactly the
address/value pairs of `l` (each a live node distinct from the sentinel, with
a correct back pointer), and leaves the walk with last-visited address `q`
and next address `b`.
-/

def chain (s : DL) : Nat → Nat → List (Nat × Int) → Nat → Nat → Bool
  | p, a, [], q, b => q == p && b == a
  | p, a, (c, v) :: l, q, b =>
    c == a && !(a == s.head) &&
      match nodeAt s a with
      | none => false
      | some n => n.prev == p && n.index == v && chain s a n.next l q b

/-- The heap of `s` represents exactly the circular chain
sentinel → `l` → sentinel (Invariants 1–3 of the specification, plus
bookkeeping for the allocator). -/
def listRepB (s : DL) (l : List (Nat × Int)) : Bool :=
  match nodeAt s s.head with
  | none => false
  | some hn =>
    chain s s.head hn.next l hn.prev s.head &&
    decide (l.map Prod.fst).Nodup &&
    decide (keysOf s.heap).Nodup &&
    (keysOf s.heap).all (fun k => decide (k ∈ s.head :: l.map Prod.fst)) &&
    (keysOf s.heap).all (fun k => decide (k < s.nextAlloc))

/-- A valid list state: some chain is represented. -/
def ValidDL (s : DL) : Prop := ∃ l, listRepB s l = true

/-- Invariant 1 as stated by the specification: every live node `n` satisfies
`n.prev.next == n` and `n.next.prev == n`. -/
def coherent (s : DL) : Prop :=
  ∀ a n, nodeAt s a = some n →
    (∃ np, nodeAt s n.prev = some np ∧ np.next = a) ∧
    (∃ nn, nodeAt s n.next = some nn ∧ nn.prev = a)


/-- Remove the first pair carrying value `idx` (first-match-wins policy). -/
def removeFirstP (idx : Int) : List (Nat × Int) → List (Nat × Int)
  | [] => []
  | (c, w) :: l => if w = idx then l else (c, w) :: removeFirstP idx l

/-- Iterated `insertEntry`, mirroring a client performing N inserts. -/
def insertAll (s : DL) : List Int → Option DL
  | [] => some s
  | v :: t =>
    match insertEntry s v with
    | none => none
    | some s2 => insertAll s2 t

/-- The list state reached from a fresh list by `insertEntry 2; insertEntry 8;
insertEntry 5` (the concrete scenario of the specification). -/
def exampleDL : DL :=
  { heap := [(4, { prev := 1, next := 3, index := 5 }),
             (3, { prev := 4, next := 2, index := 8 }),
             (2, { prev := 3, next := 1, index := 2 }),
             (1, { prev := 2, next := 4, index := -1 })],
    head := 1, nextAlloc := 5 }

/-- The chain represented by `exampleDL`: values 5, 8, 2 from head to tail. -/
def exampleChain : List (Nat × Int) := [(4, 5), (3, 8), (2, 2)]

/-!
## Heap lemmas
-/

theorem hget_mem_keys {h : Heap} {a : Nat} {n : Node} (hg : hget h a = some n) :
    a ∈ keysOf h := by
  induction h with
  | nil => simp [hget] at hg
  | cons e t ih =>
    obtain ⟨b, m⟩ := e
    by_cases hb : b = a
    · subst hb; simp [keysOf]
    · simp [hget, hb] at hg
      simp [keysOf] at ih ⊢
      exact Or.inr (ih hg)

theorem mem_keys_isSome {h : Heap} {a : Nat} (ha : a ∈ keysOf h) :
    ∃ n, hget h a = some n := by
  induction h with
  | nil => simp [keysOf] at ha
  | cons e t ih =>
    obtain ⟨b, m⟩ := e
    by_cases hb : b = a
    · subst hb; exact ⟨m, by simp [hget]⟩
    · simp [keysOf, hb] at ha
      rcases ha with ha | ha
      · exact absurd ha.symm hb
      · obtain ⟨n, hn⟩ := ih (by simpa [keysOf] using ha)
        exact ⟨n, by simp [hget, hb, hn]⟩

theorem hget_hset_self {h : Heap} {a : Nat} {m n : Node}
    (ha : hget h a = some m) : hget (hset h a n) a = some n := by
  induction h with
  | nil => simp [hget] at ha
  | cons e t ih =>
    obtain ⟨b, k⟩ := e
    by_cases hb : b = a
    · subst hb; simp [hset, hget]
    · simp [hget, hb] at ha
      simp [hset, hget, hb, ih ha]

theorem hget_hset_ne {h : Heap} {a : Nat} {n : Node} {x : Nat} (hx : x ≠ a) :
    hget (hset h a n) x = hget h x := by
  induction h with
  | nil => simp [hset]
  | cons e t ih =>
    obtain ⟨b, k⟩ := e
    by_cases hb : b = a
    · subst hb
      simp [hset, hget, Ne.symm hx]
    · simp [hset, hget, hb, ih]

theorem keysOf_hset (h : Heap) (a : Nat) (n : Node) :
    keysOf (hset h a n) = keysOf h := by
  induction h with
  | nil => simp [hset]
  | cons e t ih =>
    obtain ⟨b, k⟩ := e
    by_cases hb : b = a
    · subst hb; simp [hset, keysOf]
    · simp [hset, keysOf, hb] at ih ⊢
      exact ih

theorem length_hset (h : Heap) (a : Nat) (n : Node) :
    (hset h a n).length = h.length := by
  have := keysOf_hset h a n
  have h1 : (keysOf (hset h a n)).length = (keysOf h).length := by rw [this]
  simpa [keysOf] using h1

theorem keysOf_hdel (h : Heap) (a : Nat) :
    keysOf (hdel h a) = (keysOf h).filter (fun k => k ≠ a) := by
  induction h with
  | nil => simp [hdel, keysOf]
  | cons e t ih =>
    obtain ⟨b, k⟩ := e
    by_cases hb : b = a
    · subst hb; simpa [hdel, keysOf] using ih
    · simp [hdel, keysOf, hb] at ih ⊢
      simpa [hdel, keysOf] using ih

theorem hget_hdel_ne {h : Heap} (a : Nat) {x : Nat} (hx : x ≠ a) :
    hget (hdel h a) x = hget h x := by
  induction h with
  | nil => simp [hdel]
  | cons e t ih =>
    obtain ⟨b, k⟩ := e
    by_cases hb : b = a
    · subst hb; simp [hdel, hget, Ne.symm hx] at ih ⊢; exact ih
    · by_cases hxb : b = x
      · subst hxb; simp [hdel, hget, hb]
      · simp [hdel, hget, hb, hxb] at ih ⊢; exact ih

theorem hdel_hset_self (h : Heap) (a : Nat) (n : Node) :
    hdel (hset h a n) a = hdel h a := by
  induction h with
  | nil => simp [hset]
  | cons e t ih =>
    obtain ⟨b, k⟩ := e
    by_cases hb : b = a
    · subst hb; simp [hset, hdel]
    · simp [hset, hdel, hb]
      simpa [hdel] using ih

/-!
## Chain lemmas
-/

theorem chain_nil {s : DL} {p a q b : Nat} :
    chain s p a [] q b = true ↔ q = p ∧ b = a := by
  simp [chain]

theorem chain_cons {s : DL} {p a q b c : Nat} {v : Int} {l : List (Nat × Int)} :
    chain s p a ((c, v) :: l) q b = true ↔
      c = a ∧ a ≠ s.head ∧ ∃ n, nodeAt s a = some n ∧ n.prev = p ∧ n.index = v ∧
        chain s a n.next l q b = true := by
  cases h : nodeAt s a <;> simp [chain, h, and_assoc]

theorem chain_det {s : DL} {p a q b q2 b2 : Nat} {l : List (Nat × Int)}
    (h1 : chain s p a l q b = true) (h2 : chain s p a l q2 b2 = true) :
    q = q2 ∧ b = b2 := by
  induction l generalizing p a with
  | nil =>
    rw [chain_nil] at h1 h2
    exact ⟨h1.1.trans h2.1.symm, h1.2.trans h2.2.symm⟩
  | cons x l ih =>
    obtain ⟨c, v⟩ := x
    rw [chain_cons] at h1 h2
    obtain ⟨-, -, n, hn, -, -, hc1⟩ := h1
    obtain ⟨-, -, m, hm, -, -, hc2⟩ := h2
    rw [hn] at hm
    cases hm
    exact ih hc1 hc2

theorem chain_mem {s : DL} {p a q b : Nat} {l : List (Nat × Int)}
    (h : chain s p a l q b = true) :
    ∀ x ∈ l, x.1 ∈ keysOf s.heap ∧ x.1 ≠ s.head := by
  induction l generalizing p a with
  | nil => intro x hx; simp at hx
  | cons y l ih =>
    obtain ⟨c, v⟩ := y
    rw [chain_cons] at h
    obtain ⟨hc, hah, n, hn, -, -, hch⟩ := h
    intro x hx
    rcases List.mem_cons.mp hx with hx | hx
    · subst hx
      exact ⟨hc ▸ hget_mem_keys hn, hc ▸ hah⟩
    · exact ih hch x hx

theorem chain_frame {s s2 : DL} {p a q b : Nat} {l : List (Nat × Int)}
    (hhead : s2.head = s.head)
    (hagree : ∀ x ∈ l.map Prod.fst, hget s2.heap x = hget s.heap x)
    (h : chain s p a l q b = true) : chain s2 p a l q b = true := by
  induction l generalizing p a with
  | nil => rw [chain_nil] at h ⊢; exact h
  | cons y l ih =>
    obtain ⟨c, v⟩ := y
    rw [chain_cons] at h ⊢
    obtain ⟨hc, hah, n, hn, hprev, hidx, hch⟩ := h
    refine ⟨hc, by rw [hhead]; exact hah, n, ?_, hprev, hidx, ?_⟩
    · rw [show nodeAt s2 a = hget s2.heap a from rfl, hagree a (by simp [← hc]), ← hn]
      rfl
    · exact ih (fun x hx => hagree x (by simp at hx ⊢; exact Or.inr hx)) hch

theorem chain_append {s : DL} {p a q b : Nat} {l1 l2 : List (Nat × Int)} :
    chain s p a (l1 ++ l2) q b = true ↔
      ∃ q1 b1, chain s p a l1 q1 b1 = true ∧ chain s q1 b1 l2 q b = true := by
  induction l1 generalizing p a with
  | nil =>
    constructor
    · intro h; exact ⟨p, a, chain_nil.mpr ⟨rfl, rfl⟩, h⟩
    · rintro ⟨q1, b1, h1, h2⟩
      obtain ⟨hq, hb⟩ := chain_nil.mp h1
      subst hq; subst hb; exact h2
  | cons y l ih =>
    obtain ⟨c, v⟩ := y
    constructor
    · intro h
      rw [List.cons_append, chain_cons] at h
      obtain ⟨hc, hah, n, hn, hprev, hidx, hch⟩ := h
      obtain ⟨q1, b1, ha1, ha2⟩ := ih.mp hch
      exact ⟨q1, b1, chain_cons.mpr ⟨hc, hah, n, hn, hprev, hidx, ha1⟩, ha2⟩
    · rintro ⟨q1, b1, h1, h2⟩
      rw [chain_cons] at h1
      obtain ⟨hc, hah, n, hn, hprev, hidx, hch⟩ := h1
      rw [List.cons_append, chain_cons]
      exact ⟨hc, hah, n, hn, hprev, hidx, ih.mpr ⟨q1, b1, hch, h2⟩⟩

theorem chain_exit_eq {s : DL} {p a q b : Nat} {l : List (Nat × Int)}
    (h : chain s p a l q b = true) :
    (l = [] ∧ q = p ∧ b = a) ∨ (∃ x, x ∈ l ∧ q = x.1) := by
  induction l generalizing p a with
  | nil => exact Or.inl ⟨rfl, chain_nil.mp h⟩
  | cons y l ih =>
    obtain ⟨c, v⟩ := y
    rw [chain_cons] at h
    obtain ⟨hc, -, n, -, -, -, hch⟩ := h
    rcases ih hch with ⟨-, hq, -⟩ | ⟨x, hx, hq⟩
    · exact Or.inr ⟨(c, v), by simp, by rw [hq, hc]⟩
    · exact Or.inr ⟨x, by simp [hx], hq⟩

theorem chain_last {s : DL} {p a q b : Nat} {l : List (Nat × Int)}
    (h : chain s p a l q b = true) (hne : l ≠ []) :
    ∃ qn, nodeAt s q = some qn ∧ qn.next = b := by
  induction l generalizing p a with
  | nil => exact absurd rfl hne
  | cons y l ih =>
    obtain ⟨c, v⟩ := y
    rw [chain_cons] at h
    obtain ⟨hc, -, n, hn, -, -, hch⟩ := h
    rcases List.eq_nil_or_concat l with hl | ⟨l0, x, hl⟩
    · subst hl
      obtain ⟨hq, hb⟩ := chain_nil.mp hch
      exact ⟨n, by rw [hq]; exact hn, hb.symm⟩
    · exact ih hch (by simp [hl])

theorem chain_relink {s s2 : DL} {p a q b b2 : Nat} {l : List (Nat × Int)}
    (hhead : s2.head = s.head)
    (hnd : (l.map Prod.fst).Nodup)
    (hne : l ≠ [])
    (hagree : ∀ x ∈ l.map Prod.fst, x ≠ q → hget s2.heap x = hget s.heap x)
    (hq : ∀ qn, nodeAt s q = some qn → nodeAt s2 q = some { qn with next := b2 })
    (h : chain s p a l q b = true) :
    chain s2 p a l q b2 = true := by
  induction l generalizing p a with
  | nil => exact absurd rfl hne
  | cons y l ih =>
    obtain ⟨c, v⟩ := y
    rw [chain_cons] at h
    obtain ⟨hc, hah, n, hn, hprev, hidx, hch⟩ := h
    rcases List.eq_nil_or_concat l with hl | ⟨l0, x, hl⟩
    · subst hl
      obtain ⟨hqa, hb⟩ := chain_nil.mp hch
      rw [chain_cons]
      have hs2 : nodeAt s2 a = some { n with next := b2 } := by
        have := hq n (by rw [hqa]; exact hn)
        rwa [hqa] at this
      exact ⟨hc, by rw [hhead]; exact hah, { n with next := b2 }, hs2, hprev, hidx,
        chain_nil.mpr ⟨hqa, rfl⟩⟩
    · have hlne : l ≠ [] := by simp [hl]
      have hnd2 : c ∉ l.map Prod.fst ∧ (l.map Prod.fst).Nodup := by
        rw [List.map_cons, List.nodup_cons] at hnd; exact hnd
      obtain ⟨hcnot, hndl⟩ := hnd2
      have hqmem : q ∈ l.map Prod.fst := by
        rcases chain_exit_eq hch with ⟨he, -, -⟩ | ⟨x0, hx0, hqx⟩
        · exact absurd he hlne
        · exact hqx ▸ List.mem_map_of_mem Prod.fst hx0
      have haq : a ≠ q := fun hEq => hcnot (by rw [hc, hEq]; exact hqmem)
      rw [chain_cons]
      refine ⟨hc, by rw [hhead]; exact hah, n, ?_, hprev, hidx, ?_⟩
      · rw [show nodeAt s2 a = hget s2.heap a from rfl,
            hagree a (by simp [← hc]) haq]
        exact hn
      · exact ih hndl hlne
          (fun z hz hzq => hagree z (by simp at hz ⊢; exact Or.inr hz) hzq) hch

/-!
## Unfolding the representation invariant
-/

theorem listRep_iff {s : DL} {l : List (Nat × Int)} :
    listRepB s l = true ↔
      ∃ hn, nodeAt s s.head = some hn ∧
        chain s s.head hn.next l hn.prev s.head = true ∧
        (l.map Prod.fst).Nodup ∧
        (keysOf s.heap).Nodup ∧
        (∀ k ∈ keysOf s.heap, k = s.head ∨ k ∈ l.map Prod.fst) ∧
        (∀ k ∈ keysOf s.heap, k < s.nextAlloc) := by
  cases h : nodeAt s s.head with
  | none => simp [listRepB, h]
  | some hn => simp [listRepB, h, List.all_eq_true, and_assoc]

theorem rep_keys_perm {s : DL} {l : List (Nat × Int)} (h : listRepB s l = true) :
    (keysOf s.heap).Perm (s.head :: l.map Prod.fst) := by
  obtain ⟨hn, hhn, hch, ndl, ndk, dom, -⟩ := listRep_iff.mp h
  have head_mem : s.head ∈ keysOf s.heap := hget_mem_keys hhn
  have fst_sub : ∀ x ∈ l.map Prod.fst, x ∈ keysOf s.heap := by
    intro x hx
    obtain ⟨y, hy, hxy⟩ := List.mem_map.mp hx
    exact hxy ▸ (chain_mem hch y hy).1
  have fst_ne : ∀ x ∈ l.map Prod.fst, x ≠ s.head := by
    intro x hx
    obtain ⟨y, hy, hxy⟩ := List.mem_map.mp hx
    exact hxy ▸ (chain_mem hch y hy).2
  have nd2 : (s.head :: l.map Prod.fst).Nodup := by
    rw [List.nodup_cons]
    exact ⟨fun hmem => fst_ne s.head hmem rfl, ndl⟩
  have sub1 : keysOf s.heap ⊆ s.head :: l.map Prod.fst := by
    intro k hk
    rcases dom k hk with hk2 | hk2
    · exact hk2 ▸ List.mem_cons_self _ _
    · exact List.mem_cons_of_mem _ hk2
  have sub2 : s.head :: l.map Prod.fst ⊆ keysOf s.heap := by
    intro k hk
    rcases List.mem_cons.mp hk with hk2 | hk2
    · exact hk2 ▸ head_mem
    · exact fst_sub k hk2
  exact (ndk.subperm sub1).antisymm (nd2.subperm sub2)

theorem rep_length {s : DL} {l : List (Nat × Int)} (h : listRepB s l = true) :
    s.heap.length = l.length + 1 := by
  have hp := (rep_keys_perm h).length_eq
  simpa [keysOf, Nat.add_comm] using hp

theorem rep_head_ne_alloc {s : DL} {l : List (Nat × Int)} (h : listRepB s l = true) :
    s.head ≠ s.nextAlloc := by
  obtain ⟨hn, hhn, -, -, -, -, fresh⟩ := listRep_iff.mp h
  exact Nat.ne_of_lt (fresh s.head (hget_mem_keys hhn))

theorem hget_cons_self (h : Heap) (a : Nat) (n : Node) : hget ((a, n) :: h) a = some n := by
  simp [hget]

theorem hget_cons_ne {h : Heap} {a b : Nat} {n : Node} (hab : b ≠ a) :
    hget ((b, n) :: h) a = hget h a := by
  simp [hget, hab]

theorem hset_cons_self (h : Heap) (a : Nat) (m n : Node) :
    hset ((a, m) :: h) a n = (a, n) :: h := by
  simp [hset]

theorem hset_cons_ne {h : Heap} {a b : Nat} {m n : Node} (hab : b ≠ a) :
    hset ((b, m) :: h) a n = (b, m) :: hset h a n := by
  simp [hset, hab]

theorem hset_hset_self (h : Heap) (a : Nat) (m n : Node) :
    hset (hset h a m) a n = hset h a n := by
  induction h with
  | nil => simp [hset]
  | cons e t ih =>
    obtain ⟨b, k⟩ := e
    by_cases hb : b = a
    · subst hb; simp [hset]
    · simp [hset, hb, ih]

theorem keysOf_cons (a : Nat) (n : Node) (h : Heap) :
    keysOf ((a, n) :: h) = a :: keysOf h := rfl

/-!
## Specification of `insertEntry`
-/

theorem insertEntry_spec {s : DL} {l : List (Nat × Int)} (h : listRepB s l = true) (v : Int) :
    ∃ s2, insertEntry s v = some s2 ∧
      listRepB s2 ((s.nextAlloc, v) :: l) = true ∧
      s2.head = s.head ∧ s2.nextAlloc = s.nextAlloc + 1 ∧
      s2.heap.length = s.heap.length + 1 := by
  obtain ⟨hn, hhn, hch, ndl, ndk, dom, fresh⟩ := listRep_iff.mp h
  have hKA : s.head ≠ s.nextAlloc := rep_head_ne_alloc h
  have hAK : s.nextAlloc ≠ s.head := hKA.symm
  have hAmem : s.nextAlloc ∉ keysOf s.heap := fun hmem => absurd (fresh _ hmem) (lt_irrefl _)
  obtain ⟨hnp, hnn, hni⟩ := hn
  cases l with
  | nil =>
    obtain ⟨hq, hb⟩ := chain_nil.mp hch
    have hq2 : hnp = s.head := hq
    have hb2 : s.head = hnn := hb
    subst hq2
    subst hb2
    have hhn2 : hget s.heap s.head = some ⟨s.head, s.head, hni⟩ := hhn
    refine ⟨⟨(s.nextAlloc, ⟨s.head, s.head, v⟩) ::
              hset s.heap s.head ⟨s.nextAlloc, s.nextAlloc, hni⟩,
             s.head, s.nextAlloc + 1⟩, ?_, ?_, rfl, rfl, ?_⟩
    · simp only [insertEntry, list_add, nodeAt, hget_cons_ne hAK, hget_cons_self,
        hset_cons_self, hset_cons_ne hAK, hhn2, hget_hset_self hhn2, hset_hset_self]
    · apply listRep_iff.mpr
      refine ⟨⟨s.nextAlloc, s.nextAlloc, hni⟩, ?_, ?_, by simp, ?_, ?_, ?_⟩
      · show hget _ _ = _
        rw [hget_cons_ne hAK]
        exact hget_hset_self hhn2
      · show chain _ s.head s.nextAlloc [(s.nextAlloc, v)] s.nextAlloc s.head = true
        rw [chain_cons]
        exact ⟨rfl, hAK, ⟨s.head, s.head, v⟩, hget_cons_self _ _ _, rfl, rfl,
          chain_nil.mpr ⟨rfl, rfl⟩⟩
      · rw [keysOf_cons, keysOf_hset, List.nodup_cons]
        exact ⟨hAmem, ndk⟩
      · intro k hk
        rw [keysOf_cons, keysOf_hset] at hk
        rcases List.mem_cons.mp hk with hk | hk
        · right; rw [hk]; simp
        · rcases dom k hk with hk3 | hk3
          · exact Or.inl hk3
          · simp at hk3
      · intro k hk
        rw [keysOf_cons, keysOf_hset] at hk
        show k < s.nextAlloc + 1
        rcases List.mem_cons.mp hk with hk | hk
        · omega
        · have := fresh k hk
          omega
    · show _ + 1 = _
      rw [length_hset]
  | cons y l2 =>
    obtain ⟨d, w⟩ := y
    rw [chain_cons] at hch
    obtain ⟨hd, hah, dn, hdn, hdp, hdi, hch2⟩ := hch
    have hd2 : d = hnn := hd
    subst hd2
    obtain ⟨dnp, dnn, dni⟩ := dn
    simp only at hd hah hdn hdp hdi hch2
    have hdp2 : dnp = s.head := hdp
    subst hdp2
    have hdi2 : dni = w := hdi
    subst hdi2
    have hdmem : d ∈ keysOf s.heap := hget_mem_keys hdn
    have hdA : s.nextAlloc ≠ d := fun hEq => hAmem (hEq ▸ hdmem)
    have hKd : s.head ≠ d := fun hEq => hah hEq.symm
    have hhn2 : hget s.heap s.head = some ⟨hnp, d, hni⟩ := hhn
    have hdn2 : hget s.heap d = some ⟨s.head, dnn, dni⟩ := hdn
    have hgd : hget (hset s.heap d (⟨s.nextAlloc, dnn, dni⟩ : Node)) s.head
        = some ⟨hnp, d, hni⟩ := by
      rw [hget_hset_ne hKd]; exact hhn2
    refine ⟨⟨(s.nextAlloc, ⟨s.head, d, v⟩) ::
              hset (hset s.heap d ⟨s.nextAlloc, dnn, dni⟩) s.head ⟨hnp, s.nextAlloc, hni⟩,
             s.head, s.nextAlloc + 1⟩, ?_, ?_, rfl, rfl, ?_⟩
    · simp only [insertEntry, list_add, nodeAt, hget_cons_ne hAK, hget_cons_self,
        hset_cons_self, hset_cons_ne hAK, hget_cons_ne hdA, hset_cons_ne hdA,
        hhn2, hdn2, hgd, hget_hset_self hgd]
    · apply listRep_iff.mpr
      have hAfst : s.nextAlloc ∉ ((d, dni) :: l2).map Prod.fst := by
        intro hmem
        obtain ⟨x, hx, hx2⟩ := List.mem_map.mp hmem
        rcases List.mem_cons.mp hx with hx | hx
        · subst hx; exact hdA hx2.symm
        · exact hAmem (hx2 ▸ (chain_mem hch2 x hx).1)
      refine ⟨⟨hnp, s.nextAlloc, hni⟩, ?_, ?_, ?_, ?_, ?_, ?_⟩
      · show hget _ _ = _
        rw [hget_cons_ne hAK]
        exact hget_hset_self hgd
      · show chain _ s.head s.nextAlloc ((s.nextAlloc, v) :: (d, dni) :: l2) hnp s.head = true
        rw [chain_cons]
        refine ⟨rfl, hAK, ⟨s.head, d, v⟩, hget_cons_self _ _ _, rfl, rfl, ?_⟩
        rw [chain_cons]
        refine ⟨rfl, fun hEq => hah hEq, ⟨s.nextAlloc, dnn, dni⟩, ?_, rfl, rfl, ?_⟩
        · show hget _ _ = _
          rw [hget_cons_ne hdA, hget_hset_ne (Ne.symm hKd)]
          exact hget_hset_self hdn2
        · refine chain_frame ?_ ?_ hch2
          · rfl
          intro x hx
          have hxk : x ∈ keysOf s.heap := by
            obtain ⟨z, hz, hz2⟩ := List.mem_map.mp hx
            exact hz2 ▸ (chain_mem hch2 z hz).1
          have hxA : x ≠ s.nextAlloc := fun hEq => hAmem (hEq ▸ hxk)
          have hxK : x ≠ s.head := by
            obtain ⟨z, hz, hz2⟩ := List.mem_map.mp hx
            exact hz2 ▸ (chain_mem hch2 z hz).2
          have hxd : x ≠ d := by
            intro hEq
            rw [List.map_cons, List.nodup_cons] at ndl
            exact ndl.1 (hEq ▸ hx)
          show hget _ _ = _
          rw [hget_cons_ne (Ne.symm hxA), hget_hset_ne hxK, hget_hset_ne hxd]
      · rw [List.map_cons, List.nodup_cons]
        exact ⟨hAfst, ndl⟩
      · rw [keysOf_cons, keysOf_hset, keysOf_hset, List.nodup_cons]
        exact ⟨hAmem, ndk⟩
      · intro k hk
        rw [keysOf_cons, keysOf_hset, keysOf_hset] at hk
        rcases List.mem_cons.mp hk with hk | hk
        · right; rw [hk]; simp
        · rcases dom k hk with hk3 | hk3
          · exact Or.inl hk3
          · right
            simp only [List.map_cons, List.mem_cons] at hk3 ⊢
            tauto
      · intro k hk
        rw [keysOf_cons, keysOf_hset, keysOf_hset] at hk
        show k < s.nextAlloc + 1
        rcases List.mem_cons.mp hk with hk | hk
        · omega
        · have := fresh k hk
          omega
    · show _ + 1 = _
      rw [length_hset, length_hset]

/-!
## Specification of `list_delete` on a represented chain
-/

theorem length_filter_ne {l : List Nat} {a : Nat} (hnd : l.Nodup) (hm : a ∈ l) :
    (l.filter (fun k => k ≠ a)).length + 1 = l.length := by
  induction l with
  | nil => simp at hm
  | cons b t ih =>
    rw [List.nodup_cons] at hnd
    by_cases hb : b = a
    · subst hb
      have ht : t.filter (fun k => k ≠ b) = t := List.filter_eq_self.mpr (fun x hx => by
        simp only [ne_eq, decide_not, Bool.not_eq_eq_eq_not, Bool.not_true,
          decide_eq_false_iff_not]
        exact fun hEq => hnd.1 (hEq ▸ hx))
      simp [ht]
      exact fun x hx hEq => hnd.1 (hEq ▸ hx)
    · rcases List.mem_cons.mp hm with hm | hm
      · exact absurd hm.symm hb
      · have := ih hnd.2 hm
        simp only [List.filter_cons, if_pos (by simp [hb] : (decide (b ≠ a)) = true)]
        simp only [List.length_cons]
        omega

theorem del_side_conditions (s2 : DL) {s : DL} {pre post : List (Nat × Int)} {c : Nat} {v : Int}
    (hrep : listRepB s (pre ++ (c, v) :: post) = true)
    (hkeys : keysOf s2.heap = (keysOf s.heap).filter (fun k => k ≠ c))
    (hhead : s2.head = s.head) (halloc : s2.nextAlloc = s.nextAlloc) :
    ((pre ++ post).map Prod.fst).Nodup ∧
    (keysOf s2.heap).Nodup ∧
    (∀ k ∈ keysOf s2.heap, k = s2.head ∨ k ∈ (pre ++ post).map Prod.fst) ∧
    (∀ k ∈ keysOf s2.heap, k < s2.nextAlloc) ∧
    s2.heap.length + 1 = s.heap.length := by
  obtain ⟨hn, hhn, hch, ndl, ndk, dom, fresh⟩ := listRep_iff.mp hrep
  have hcmem : c ∈ keysOf s.heap := (chain_mem hch (c, v) (by simp)).1
  have hnd1 : ((pre ++ post).map Prod.fst).Nodup := by
    rw [List.map_append] at ndl ⊢
    rw [List.map_cons] at ndl
    exact ((List.sublist_cons_self c (post.map Prod.fst)).append_left _).nodup ndl
  refine ⟨hnd1, ?_, ?_, ?_, ?_⟩
  · rw [hkeys]; exact ndk.filter _
  · intro k hk
    rw [hkeys, List.mem_filter] at hk
    obtain ⟨hk1, hk2⟩ := hk
    have hk3 : k ≠ c := by simpa using hk2
    rcases dom k hk1 with hd1 | hd1
    · exact Or.inl (by rw [hhead]; exact hd1)
    · right
      rw [List.map_append, List.mem_append] at hd1 ⊢
      rcases hd1 with hd1 | hd1
      · exact Or.inl hd1
      · rw [List.map_cons, List.mem_cons] at hd1
        rcases hd1 with hd1 | hd1
        · exact absurd hd1 hk3
        · exact Or.inr hd1
  · intro k hk
    rw [hkeys, List.mem_filter] at hk
    rw [halloc]
    exact fresh k hk.1
  · have e1 : s2.heap.length = (keysOf s2.heap).length := by simp [keysOf]
    have e2 : s.heap.length = (keysOf s.heap).length := by simp [keysOf]
    rw [e1, e2, hkeys]
    exact length_filter_ne ndk hcmem

theorem delete_spec {s : DL} {hn : Node} {pre post : List (Nat × Int)} {prv c : Nat} {v : Int}
    (hhn : nodeAt s s.head = some hn)
    (hrep : listRepB s (pre ++ (c, v) :: post) = true)
    (hpre : chain s s.head hn.next pre prv c = true) :
    ∃ s2, list_delete s prv c = some s2 ∧ listRepB s2 (pre ++ post) = true ∧
      s2.head = s.head ∧ s2.nextAlloc = s.nextAlloc ∧
      s2.heap.length + 1 = s.heap.length := by
  obtain ⟨hn', hhn', hch, ndl, ndk, dom, fresh⟩ := listRep_iff.mp hrep
  rw [hhn] at hhn'
  injection hhn' with he
  subst he
  obtain ⟨q1, b1, hpre', hrest⟩ := chain_append.mp hch
  obtain ⟨hq1, hb1⟩ := chain_det hpre' hpre
  rw [hq1, hb1] at hrest
  rw [chain_cons] at hrest
  obtain ⟨-, hcK, cn, hcn, hcp, hci, hpost⟩ := hrest
  obtain ⟨cnp, cnn, cni⟩ := cn
  simp only at hcn hcp hci hpost
  rw [hcp, hci] at hcn
  have ndl2 := ndl
  rw [List.map_append, List.map_cons, List.nodup_append] at ndl2
  obtain ⟨ndpre, ndcpost, hdisj⟩ := ndl2
  rw [List.nodup_cons] at ndcpost
  obtain ⟨hcpost, ndpost⟩ := ndcpost
  have hcpre : c ∉ pre.map Prod.fst := fun hm => hdisj hm (List.mem_cons_self _ _)
  have hcmem : c ∈ keysOf s.heap := hget_mem_keys hcn
  have hKc : s.head ≠ c := Ne.symm hcK
  have hcn2 : hget s.heap c = some ⟨prv, cnn, v⟩ := hcn
  rcases List.eq_nil_or_concat pre with hpre_nil | ⟨pre0, eu, hpre_eq⟩
  · -- the removed node is the first user node: prev is the sentinel
    subst hpre_nil
    obtain ⟨hprvK, hcnext⟩ := chain_nil.mp hpre
    obtain ⟨hnp, hnn, hni⟩ := hn
    simp only at hcnext hpre hch hhn
    rw [← hcnext] at hhn
    subst hprvK
    have hhn2 : hget s.heap s.head = some ⟨hnp, c, hni⟩ := hhn
    cases post with
    | nil =>
      obtain ⟨hprev, hKnn⟩ := chain_nil.mp hpost
      simp only at hprev
      rw [← hKnn] at hcn2
      rw [hprev] at hhn2
      refine ⟨⟨hdel (hset s.heap s.head ⟨s.head, s.head, hni⟩) c, s.head, s.nextAlloc⟩,
        ?_, ?_, rfl, rfl, ?_⟩
      · simp only [list_delete, nodeAt, hcn2, hhn2, hget_hset_self hhn2, hset_hset_self,
          hdel_hset_self]
      · have hkeys : keysOf (hdel (hset s.heap s.head
            (⟨s.head, s.head, hni⟩ : Node)) c) = (keysOf s.heap).filter (fun k => k ≠ c) := by
          rw [keysOf_hdel, keysOf_hset]
        obtain ⟨c1, c2, c3, c4, -⟩ :=
          del_side_conditions ⟨hdel (hset s.heap s.head ⟨s.head, s.head, hni⟩) c,
            s.head, s.nextAlloc⟩ hrep hkeys rfl rfl
        apply listRep_iff.mpr
        refine ⟨⟨s.head, s.head, hni⟩, ?_, ?_, c1, c2, c3, c4⟩
        · show hget (hdel _ _) _ = _
          rw [hget_hdel_ne _ hKc]
          exact hget_hset_self hhn2
        · exact chain_nil.mpr ⟨rfl, rfl⟩
      · have hkeys : keysOf (hdel (hset s.heap s.head
            (⟨s.head, s.head, hni⟩ : Node)) c) = (keysOf s.heap).filter (fun k => k ≠ c) := by
          rw [keysOf_hdel, keysOf_hset]
        obtain ⟨-, -, -, -, c5⟩ :=
          del_side_conditions ⟨hdel (hset s.heap s.head ⟨s.head, s.head, hni⟩) c,
            s.head, s.nextAlloc⟩ hrep hkeys rfl rfl
        exact c5
    | cons y post2 =>
      obtain ⟨d, w⟩ := y
      rw [chain_cons] at hpost
      obtain ⟨hd, hdK, dn, hdn, hdp, hdi, hpost2⟩ := hpost
      rw [← hd] at hdn hdK hpost2 hcn2
      obtain ⟨dnp, dnn, dni⟩ := dn
      simp only at hdn hdp hdi hpost2
      rw [hdp, hdi] at hdn
      have hdn2 : hget s.heap d = some ⟨c, dnn, w⟩ := hdn
      have hdc : d ≠ c := by
        intro hEq
        exact hcpost (by rw [List.map_cons, List.mem_cons]; exact Or.inl hEq.symm)
      have hdK2 : d ≠ s.head := hdK
      have hKd : s.head ≠ d := Ne.symm hdK2
      have hgd : hget (hset s.heap s.head (⟨hnp, d, hni⟩ : Node)) d
          = some ⟨c, dnn, w⟩ := by
        rw [hget_hset_ne hdK2]; exact hdn2
      refine ⟨⟨hdel (hset (hset s.heap s.head ⟨hnp, d, hni⟩) d ⟨s.head, dnn, w⟩) c,
        s.head, s.nextAlloc⟩, ?_, ?_, rfl, rfl, ?_⟩
      · simp only [list_delete, nodeAt, hcn2, hhn2, hgd, hget_hset_self hgd,
          hdel_hset_self]
      · have hkeys : keysOf (hdel (hset (hset s.heap s.head (⟨hnp, d, hni⟩ : Node)) d
            (⟨s.head, dnn, w⟩ : Node)) c) = (keysOf s.heap).filter (fun k => k ≠ c) := by
          rw [keysOf_hdel, keysOf_hset, keysOf_hset]
        obtain ⟨c1, c2, c3, c4, -⟩ :=
          del_side_conditions ⟨hdel (hset (hset s.heap s.head ⟨hnp, d, hni⟩) d
            ⟨s.head, dnn, w⟩) c, s.head, s.nextAlloc⟩ hrep hkeys rfl rfl
        apply listRep_iff.mpr
        refine ⟨⟨hnp, d, hni⟩, ?_, ?_, c1, c2, c3, c4⟩
        · show hget (hdel _ _) _ = _
          rw [hget_hdel_ne _ hKc, hget_hset_ne hKd]
          exact hget_hset_self hhn2
        · show chain _ s.head d ((d, w) :: post2) hnp s.head = true
          rw [chain_cons]
          refine ⟨rfl, hdK2, ⟨s.head, dnn, w⟩, ?_, rfl, rfl, ?_⟩
          · show hget (hdel _ _) _ = _
            rw [hget_hdel_ne _ hdc]
            exact hget_hset_self hgd
          · refine chain_frame ?_ ?_ hpost2
            · rfl
            intro x hx
            have hxK : x ≠ s.head := by
              obtain ⟨z, hz, hz2⟩ := List.mem_map.mp hx
              exact hz2 ▸ (chain_mem hpost2 z hz).2
            have hxd : x ≠ d := by
              intro hEq
              rw [List.map_cons, List.nodup_cons] at ndpost
              exact ndpost.1 (hEq ▸ hx)
            have hxc : x ≠ c := by
              intro hEq
              exact hcpost (by rw [List.map_cons, List.mem_cons]; exact Or.inr (hEq ▸ hx))
            show hget (hdel _ _) _ = _
            rw [hget_hdel_ne _ hxc, hget_hset_ne hxd, hget_hset_ne hxK]
      · have hkeys : keysOf (hdel (hset (hset s.heap s.head (⟨hnp, d, hni⟩ : Node)) d
            (⟨s.head, dnn, w⟩ : Node)) c) = (keysOf s.heap).filter (fun k => k ≠ c) := by
          rw [keysOf_hdel, keysOf_hset, keysOf_hset]
        obtain ⟨-, -, -, -, c5⟩ :=
          del_side_conditions ⟨hdel (hset (hset s.heap s.head ⟨hnp, d, hni⟩) d
            ⟨s.head, dnn, w⟩) c, s.head, s.nextAlloc⟩ hrep hkeys rfl rfl
        exact c5
  · -- the removed node is preceded by the last user node of `pre`
    obtain ⟨e, u⟩ := eu
    rw [List.concat_eq_append] at hpre_eq
    subst hpre_eq
    obtain ⟨q2, b2, hpre0, hlast⟩ := chain_append.mp hpre
    rw [chain_cons] at hlast
    obtain ⟨heb2, hb2K, en, hen, hep, hei, hlast2⟩ := hlast
    obtain ⟨hprve, hcen⟩ := chain_nil.mp hlast2
    rw [← heb2] at hen hb2K hprve
    obtain ⟨enp, enn, enu⟩ := en
    simp only at hen hep hei hcen
    rw [← hcen, hei] at hen
    rw [hprve] at hcn2 hpre ⊢
    obtain ⟨hnp, hnn, hni⟩ := hn
    simp only at hhn hpre hpost hch
    have hemem : e ∈ keysOf s.heap := hget_mem_keys hen
    have heK : e ≠ s.head := hb2K
    have hKe : s.head ≠ e := Ne.symm heK
    have hepre : e ∈ (pre0 ++ [(e, u)]).map Prod.fst := by simp
    have hec : e ≠ c := fun hEq => hcpre (hEq ▸ hepre)
    have hce : c ≠ e := Ne.symm hec
    have hen2 : hget s.heap e = some ⟨enp, c, u⟩ := hen
    have hpre_ne : pre0 ++ [(e, u)] ≠ [] := by simp
    cases post with
    | nil =>
      obtain ⟨hprev, hKnn⟩ := chain_nil.mp hpost
      rw [← hKnn] at hcn2
      rw [hprev] at hhn
      have hhn2 : hget s.heap s.head = some ⟨c, hnn, hni⟩ := hhn
      have hgK : hget (hset s.heap e (⟨enp, s.head, u⟩ : Node)) s.head
          = some ⟨c, hnn, hni⟩ := by
        rw [hget_hset_ne hKe]; exact hhn2
      refine ⟨⟨hdel (hset (hset s.heap e ⟨enp, s.head, u⟩) s.head ⟨e, hnn, hni⟩) c,
        s.head, s.nextAlloc⟩, ?_, ?_, rfl, rfl, ?_⟩
      · simp only [list_delete, nodeAt, hcn2, hen2, hgK, hget_hset_self hgK, hdel_hset_self]
      · have hkeys : keysOf (hdel (hset (hset s.heap e (⟨enp, s.head, u⟩ : Node)) s.head
            (⟨e, hnn, hni⟩ : Node)) c) = (keysOf s.heap).filter (fun k => k ≠ c) := by
          rw [keysOf_hdel, keysOf_hset, keysOf_hset]
        obtain ⟨c1, c2, c3, c4, -⟩ :=
          del_side_conditions ⟨hdel (hset (hset s.heap e ⟨enp, s.head, u⟩) s.head
            ⟨e, hnn, hni⟩) c, s.head, s.nextAlloc⟩ hrep hkeys rfl rfl
        apply listRep_iff.mpr
        refine ⟨⟨e, hnn, hni⟩, ?_, ?_, c1, c2, c3, c4⟩
        · show hget (hdel _ _) _ = _
          rw [hget_hdel_ne _ hKc]
          exact hget_hset_self hgK
        · show chain _ s.head hnn ((pre0 ++ [(e, u)]) ++ []) e s.head = true
          rw [List.append_nil]
          refine chain_relink ?_ ndpre hpre_ne ?_ ?_ hpre
          · rfl
          · intro x hx hxe
            have hxK : x ≠ s.head := by
              obtain ⟨z, hz, hz2⟩ := List.mem_map.mp hx
              exact hz2 ▸ (chain_mem hpre z hz).2
            have hxc : x ≠ c := fun hEq => hcpre (hEq ▸ hx)
            show hget (hdel _ _) _ = _
            rw [hget_hdel_ne _ hxc, hget_hset_ne hxK, hget_hset_ne hxe]
          · intro qn hqn
            rw [hen] at hqn
            injection hqn with hqn2
            subst hqn2
            show hget (hdel _ _) _ = _
            rw [hget_hdel_ne _ hec, hget_hset_ne heK]
            exact hget_hset_self hen2
      · have hkeys : keysOf (hdel (hset (hset s.heap e (⟨enp, s.head, u⟩ : Node)) s.head
            (⟨e, hnn, hni⟩ : Node)) c) = (keysOf s.heap).filter (fun k => k ≠ c) := by
          rw [keysOf_hdel, keysOf_hset, keysOf_hset]
        obtain ⟨-, -, -, -, c5⟩ :=
          del_side_conditions ⟨hdel (hset (hset s.heap e ⟨enp, s.head, u⟩) s.head
            ⟨e, hnn, hni⟩) c, s.head, s.nextAlloc⟩ hrep hkeys rfl rfl
        exact c5
    | cons y post2 =>
      obtain ⟨d, w⟩ := y
      rw [chain_cons] at hpost
      obtain ⟨hd, hdK, dn, hdn, hdp, hdi, hpost2⟩ := hpost
      rw [← hd] at hdn hdK hpost2 hcn2
      obtain ⟨dnp, dnn, dni⟩ := dn
      simp only at hdn hdp hdi hpost2
      rw [hdp, hdi] at hdn
      have hdn2 : hget s.heap d = some ⟨c, dnn, w⟩ := hdn
      have hdc : d ≠ c := by
        intro hEq
        exact hcpost (by rw [List.map_cons, List.mem_cons]; exact Or.inl hEq.symm)
      have hdK2 : d ≠ s.head := hdK
      have hKd : s.head ≠ d := Ne.symm hdK2
      have hdpost : d ∈ ((d, w) :: post2).map Prod.fst := by simp
      have hed : e ≠ d := by
        intro hEq
        exact hdisj hepre (by rw [hEq]; exact List.mem_cons_of_mem _ hdpost)
      have hde : d ≠ e := Ne.symm hed
      have hhn2 : hget s.heap s.head = some ⟨hnp, hnn, hni⟩ := hhn
      have hgd : hget (hset s.heap e (⟨enp, d, u⟩ : Node)) d = some ⟨c, dnn, w⟩ := by
        rw [hget_hset_ne hde]; exact hdn2
      refine ⟨⟨hdel (hset (hset s.heap e ⟨enp, d, u⟩) d ⟨e, dnn, w⟩) c,
        s.head, s.nextAlloc⟩, ?_, ?_, rfl, rfl, ?_⟩
      · simp only [list_delete, nodeAt, hcn2, hen2, hgd, hget_hset_self hgd, hdel_hset_self]
      · have hkeys : keysOf (hdel (hset (hset s.heap e (⟨enp, d, u⟩ : Node)) d
            (⟨e, dnn, w⟩ : Node)) c) = (keysOf s.heap).filter (fun k => k ≠ c) := by
          rw [keysOf_hdel, keysOf_hset, keysOf_hset]
        obtain ⟨c1, c2, c3, c4, -⟩ :=
          del_side_conditions ⟨hdel (hset (hset s.heap e ⟨enp, d, u⟩) d
            ⟨e, dnn, w⟩) c, s.head, s.nextAlloc⟩ hrep hkeys rfl rfl
        apply listRep_iff.mpr
        refine ⟨⟨hnp, hnn, hni⟩, ?_, ?_, c1, c2, c3, c4⟩
        · show hget (hdel _ _) _ = _
          rw [hget_hdel_ne _ hKc, hget_hset_ne hKd, hget_hset_ne hKe]
          exact hhn2
        · show chain _ s.head hnn ((pre0 ++ [(e, u)]) ++ (d, w) :: post2) hnp s.head = true
          apply chain_append.mpr
          refine ⟨e, d, ?_, ?_⟩
          · refine chain_relink ?_ ndpre hpre_ne ?_ ?_ hpre
            · rfl
            · intro x hx hxe
              have hxc : x ≠ c := fun hEq => hcpre (hEq ▸ hx)
              have hxd : x ≠ d := by
                intro hEq
                exact hdisj (hEq ▸ hx) (List.mem_cons_of_mem _ hdpost)
              show hget (hdel _ _) _ = _
              rw [hget_hdel_ne _ hxc, hget_hset_ne hxd, hget_hset_ne hxe]
            · intro qn hqn
              rw [hen] at hqn
              injection hqn with hqn2
              subst hqn2
              show hget (hdel _ _) _ = _
              rw [hget_hdel_ne _ hec, hget_hset_ne hed]
              exact hget_hset_self hen2
          · show chain _ e d ((d, w) :: post2) hnp s.head = true
            rw [chain_cons]
            refine ⟨rfl, hdK2, ⟨e, dnn, w⟩, ?_, rfl, rfl, ?_⟩
            · show hget (hdel _ _) _ = _
              rw [hget_hdel_ne _ hdc]
              exact hget_hset_self hgd
            · refine chain_frame ?_ ?_ hpost2
              · rfl
              intro x hx
              have hxc : x ≠ c := by
                intro hEq
                exact hcpost (by rw [List.map_cons, List.mem_cons]; exact Or.inr (hEq ▸ hx))
              have hxd : x ≠ d := by
                intro hEq
                rw [List.map_cons, List.nodup_cons] at ndpost
                exact ndpost.1 (hEq ▸ hx)
              have hxe : x ≠ e := by
                intro hEq
                apply hdisj hepre
                rw [← hEq]
                exact List.mem_cons_of_mem _
                  (by rw [List.map_cons, List.mem_cons]; exact Or.inr hx)
              show hget (hdel _ _) _ = _
              rw [hget_hdel_ne _ hxc, hget_hset_ne hxd, hget_hset_ne hxe]
      · have hkeys : keysOf (hdel (hset (hset s.heap e (⟨enp, d, u⟩ : Node)) d
            (⟨e, dnn, w⟩ : Node)) c) = (keysOf s.heap).filter (fun k => k ≠ c) := by
          rw [keysOf_hdel, keysOf_hset, keysOf_hset]
        obtain ⟨-, -, -, -, c5⟩ :=
          del_side_conditions ⟨hdel (hset (hset s.heap e ⟨enp, d, u⟩) d
            ⟨e, dnn, w⟩) c, s.head, s.nextAlloc⟩ hrep hkeys rfl rfl
        exact c5

/-!
## Specification of `removeEntry`
-/

theorem removeFirstP_snd (idx : Int) (l : List (Nat × Int)) :
    (removeFirstP idx l).map Prod.snd = (l.map Prod.snd).erase idx := by
  induction l with
  | nil => simp [removeFirstP]
  | cons y t ih =>
    obtain ⟨c, w⟩ := y
    by_cases hw : w = idx
    · subst hw; simp [removeFirstP, List.erase_cons]
    · simp [removeFirstP, hw, List.erase_cons, ih]

theorem removeLoop_spec {s : DL} {hn : Node} {idx : Int} (pre rest : List (Nat × Int))
    (prv cur fuel : Nat)
    (hhn : nodeAt s s.head = some hn)
    (hrep : listRepB s (pre ++ rest) = true)
    (hpre : chain s s.head hn.next pre prv cur = true)
    (hfuel : rest.length < fuel) :
    (idx ∉ rest.map Prod.snd → removeLoop s idx prv cur fuel = some (s, true)) ∧
    (idx ∈ rest.map Prod.snd →
      ∃ s2, removeLoop s idx prv cur fuel = some (s2, false) ∧
        listRepB s2 (pre ++ removeFirstP idx rest) = true ∧
        s2.head = s.head ∧ s2.nextAlloc = s.nextAlloc ∧
        s2.heap.length + 1 = s.heap.length) := by
  induction rest generalizing pre prv cur fuel with
  | nil =>
    obtain ⟨hn', hhn', hch, -⟩ := listRep_iff.mp hrep
    rw [hhn] at hhn'
    injection hhn' with he
    subst he
    rw [List.append_nil] at hch
    obtain ⟨hq, hb⟩ := chain_det hpre hch
    cases fuel with
    | zero => omega
    | succ f =>
      constructor
      · intro hnm
        simp [removeLoop, isEnd, hb]
      · intro hmem
        simp at hmem
  | cons y rest2 ih =>
    obtain ⟨c, w⟩ := y
    have hrep0 := hrep
    obtain ⟨hn', hhn', hch, -⟩ := listRep_iff.mp hrep
    rw [hhn] at hhn'
    injection hhn' with he
    subst he
    obtain ⟨q1, b1, hpre', hrest⟩ := chain_append.mp hch
    obtain ⟨hq1, hb1⟩ := chain_det hpre' hpre
    rw [hq1, hb1] at hrest
    rw [chain_cons] at hrest
    obtain ⟨hcur, hcurK, cn, hcn, hcp, hci, hrest2⟩ := hrest
    cases fuel with
    | zero => omega
    | succ f =>
      have hend : isEnd s cur = false := by
        simp [isEnd, hcurK]
      by_cases hwidx : cn.index = idx
      · -- found: delete the node at `cur`
        have hw_idx : w = idx := by rw [← hci]; exact hwidx
        have hrepC : listRepB s (pre ++ (cur, w) :: rest2) = true := by
          rw [← hcur]; exact hrep0
        have hpreC : chain s s.head hn.next pre prv cur = true := hpre
        obtain ⟨s2, hdel2, hrep2, hh2, ha2, hl2⟩ := delete_spec hhn hrepC hpreC
        constructor
        · intro hnm
          exact absurd (by simp [hw_idx] : idx ∈ ((c, w) :: rest2).map Prod.snd) hnm
        · intro hmem
          refine ⟨s2, ?_, ?_, hh2, ha2, hl2⟩
          · simp only [removeLoop, hend, Bool.false_eq_true, if_false, hcn, hwidx, if_pos,
              hdel2, Option.map_some']
          · show listRepB s2 (pre ++ removeFirstP idx ((c, w) :: rest2)) = true
            simp only [removeFirstP, hw_idx, if_pos]
            exact hrep2
      · -- not this node: advance the scan
        have hw_ne : w ≠ idx := by rw [← hci]; exact hwidx
        have hrep2 : listRepB s ((pre ++ [(c, w)]) ++ rest2) = true := by
          rw [List.append_assoc]; exact hrep0
        have hpre2 : chain s s.head hn.next (pre ++ [(c, w)]) cur cn.next = true := by
          apply chain_append.mpr
          refine ⟨prv, cur, hpre, ?_⟩
          rw [chain_cons]
          exact ⟨hcur, hcurK, cn, hcn, hcp, hci, chain_nil.mpr ⟨rfl, rfl⟩⟩
        have hfuel2 : rest2.length < f := by
          simp only [List.length_cons] at hfuel
          omega
        obtain ⟨ih1, ih2⟩ := ih (pre ++ [(c, w)]) cur cn.next f hrep2 hpre2 hfuel2
        constructor
        · intro hnm
          have hnm2 : idx ∉ rest2.map Prod.snd := by
            intro hmem
            exact hnm (by rw [List.map_cons, List.mem_cons]; exact Or.inr hmem)
          rw [show removeLoop s idx prv cur (f + 1)
              = removeLoop s idx cur cn.next f from by
            simp only [removeLoop, hend, Bool.false_eq_true, if_false, hcn, hwidx,
              if_neg, ite_false]]
          exact ih1 hnm2
        · intro hmem
          have hmem2 : idx ∈ rest2.map Prod.snd := by
            rw [List.map_cons, List.mem_cons] at hmem
            rcases hmem with hmem | hmem
            · exact absurd hmem.symm hw_ne
            · exact hmem
          obtain ⟨s2, hloop, hrep3, hh3, ha3, hl3⟩ := ih2 hmem2
          refine ⟨s2, ?_, ?_, hh3, ha3, hl3⟩
          · rw [show removeLoop s idx prv cur (f + 1)
                = removeLoop s idx cur cn.next f from by
              simp only [removeLoop, hend, Bool.false_eq_true, if_false, hcn, hwidx,
                if_neg, ite_false]]
            exact hloop
          · show listRepB s2 (pre ++ removeFirstP idx ((c, w) :: rest2)) = true
            simp only [removeFirstP, hw_ne, if_neg, ite_false]
            rw [show pre ++ (c, w) :: removeFirstP idx rest2
                = (pre ++ [(c, w)]) ++ removeFirstP idx rest2 from by
              rw [List.append_assoc]; rfl]
            exact hrep3

theorem removeEntry_notfound {s : DL} {l : List (Nat × Int)} {idx : Int}
    (hrep : listRepB s l = true) (hnm : idx ∉ l.map Prod.snd) :
    removeEntry s idx = some (s, true) := by
  obtain ⟨hn, hhn, -⟩ := listRep_iff.mp hrep
  have hrep2 : listRepB s ([] ++ l) = true := by rw [List.nil_append]; exact hrep
  have hpre : chain s s.head hn.next [] s.head hn.next = true :=
    chain_nil.mpr ⟨rfl, rfl⟩
  have hfuel : l.length < s.heap.length + 1 := by
    rw [rep_length hrep]; omega
  obtain ⟨h1, -⟩ := removeLoop_spec [] l s.head hn.next (s.heap.length + 1)
    hhn hrep2 hpre hfuel
  simp only [removeEntry, hhn]
  exact h1 hnm

theorem removeEntry_found {s : DL} {l : List (Nat × Int)} {idx : Int}
    (hrep : listRepB s l = true) (hm : idx ∈ l.map Prod.snd) :
    ∃ s2, removeEntry s idx = some (s2, false) ∧
      listRepB s2 (removeFirstP idx l) = true ∧
      s2.head = s.head ∧ s2.nextAlloc = s.nextAlloc ∧
      s2.heap.length + 1 = s.heap.length := by
  obtain ⟨hn, hhn, -⟩ := listRep_iff.mp hrep
  have hrep2 : listRepB s ([] ++ l) = true := by rw [List.nil_append]; exact hrep
  have hpre : chain s s.head hn.next [] s.head hn.next = true :=
    chain_nil.mpr ⟨rfl, rfl⟩
  have hfuel : l.length < s.heap.length + 1 := by
    rw [rep_length hrep]; omega
  obtain ⟨-, h2⟩ := removeLoop_spec [] l s.head hn.next (s.heap.length + 1)
    hhn hrep2 hpre hfuel
  obtain ⟨s2, hloop, hr, hh, ha, hl⟩ := h2 hm
  refine ⟨s2, ?_, by rw [List.nil_append] at hr; exact hr, hh, ha, hl⟩
  simp only [removeEntry, hhn]
  exact hloop

/-!
## Specification of `traverseList` and `cleanList`
-/

theorem traverseFrom_spec {s : DL} {p a q : Nat} {l : List (Nat × Int)} (fuel : Nat)
    (hch : chain s p a l q s.head = true) (hfuel : l.length < fuel) :
    traverseFrom s a fuel = some (l.map Prod.snd, s) := by
  induction l generalizing p a fuel with
  | nil =>
    obtain ⟨hq, hb⟩ := chain_nil.mp hch
    cases fuel with
    | zero => omega
    | succ f => simp [traverseFrom, isEnd, ← hb]
  | cons y t ih =>
    obtain ⟨c, w⟩ := y
    rw [chain_cons] at hch
    obtain ⟨hc, haK, n, hna, hprev, hidx, hch2⟩ := hch
    cases fuel with
    | zero => omega
    | succ f =>
      have ht : traverseFrom s n.next f = some (t.map Prod.snd, s) :=
        ih f hch2 (by simp only [List.length_cons] at hfuel; omega)
      simp [traverseFrom, isEnd, haK, hna, ht, hidx]

theorem traverseList_spec {s : DL} {l : List (Nat × Int)} (hrep : listRepB s l = true) :
    traverseList s = some (l.map Prod.snd, s) := by
  obtain ⟨hn, hhn, hch, -⟩ := listRep_iff.mp hrep
  have hfuel : l.length < s.heap.length + 1 := by rw [rep_length hrep]; omega
  simp only [traverseList, hhn]
  exact traverseFrom_spec _ hch hfuel

theorem cleanLoop_spec {s : DL} {l : List (Nat × Int)} (fuel : Nat)
    (hrep : listRepB s l = true) (hfuel : l.length < fuel) :
    ∃ s2, cleanLoop fuel s = some s2 ∧ listRepB s2 [] = true ∧
      s2.head = s.head ∧ s2.nextAlloc = s.nextAlloc := by
  induction l generalizing s fuel with
  | nil =>
    obtain ⟨hn, hhn, hch, -⟩ := listRep_iff.mp hrep
    obtain ⟨hq, hb⟩ := chain_nil.mp hch
    cases fuel with
    | zero => omega
    | succ f =>
      refine ⟨s, ?_, hrep, rfl, rfl⟩
      simp [cleanLoop, hhn, isEnd, ← hb]
  | cons y t ih =>
    obtain ⟨c, w⟩ := y
    obtain ⟨hn, hhn, hch, -⟩ := listRep_iff.mp hrep
    have hch2 := hch
    rw [chain_cons] at hch2
    obtain ⟨hc, hcK, cn, hcn, -⟩ := hch2
    cases fuel with
    | zero => omega
    | succ f =>
      have hrepC : listRepB s ([] ++ (c, w) :: t) = true := by
        rw [List.nil_append]; exact hrep
      have hpreC : chain s s.head hn.next [] s.head c = true :=
        chain_nil.mpr ⟨rfl, hc⟩
      obtain ⟨s2, hdel2, hrep2, hh2, ha2, -⟩ := delete_spec hhn hrepC hpreC
      rw [List.nil_append] at hrep2
      rw [hc] at hdel2
      have hfuel2 : t.length < f := by
        simp only [List.length_cons] at hfuel; omega
      obtain ⟨s3, hloop, hrep3, hh3, ha3⟩ := ih f hrep2 hfuel2
      refine ⟨s3, ?_, hrep3, by rw [hh3, hh2], by rw [ha3, ha2]⟩
      have hend2 : isEnd s hn.next = false := by
        simp [isEnd, hcK]
      simp only [cleanLoop, hhn, hend2, Bool.false_eq_true, if_false, hdel2]
      exact hloop

theorem cleanList_spec {s : DL} {l : List (Nat × Int)} (hrep : listRepB s l = true) :
    ∃ s2, cleanList s = some s2 ∧ listRepB s2 [] = true ∧
      s2.head = s.head ∧ s2.nextAlloc = s.nextAlloc := by
  obtain ⟨hn, hhn, hch, -⟩ := listRep_iff.mp hrep
  cases l with
  | nil =>
    obtain ⟨hq, hb⟩ := chain_nil.mp hch
    refine ⟨s, ?_, hrep, rfl, rfl⟩
    simp [cleanList, isEmpty, nodeAt] at *
    simp [cleanList, isEmpty, hhn, ← hb]
  | cons y t =>
    obtain ⟨c, w⟩ := y
    have hch2 := hch
    rw [chain_cons] at hch2
    obtain ⟨hc, hcK, -⟩ := hch2
    have hfuel : ((c, w) :: t).length < s.heap.length + 1 := by
      rw [rep_length hrep]; omega
    obtain ⟨s2, hloop, h2, hh, ha⟩ := cleanLoop_spec (s.heap.length + 1) hrep hfuel
    refine ⟨s2, ?_, h2, hh, ha⟩
    have hne : (decide (hn.next = s.head)) = false := by
      simp only [decide_eq_false_iff_not]
      exact hcK
    simp only [cleanList, isEmpty, hhn, Option.map_some', hne]
    exact hloop

/-!
## Invariant 1: pointer coherence
-/

theorem chain_coh {s : DL} {p a q b : Nat} {l : List (Nat × Int)}
    (h : chain s p a l q b = true)
    (hp : ∃ pn, nodeAt s p = some pn ∧ pn.next = a)
    (hb : b = s.head)
    (hq : ∃ hn2, nodeAt s s.head = some hn2 ∧ hn2.prev = q) :
    ∀ x ∈ l, ∃ n, nodeAt s x.1 = some n ∧
      (∃ np, nodeAt s n.prev = some np ∧ np.next = x.1) ∧
      (∃ nn, nodeAt s n.next = some nn ∧ nn.prev = x.1) := by
  induction l generalizing p a with
  | nil => intro x hx; simp at hx
  | cons y t ih =>
    obtain ⟨c, w⟩ := y
    rw [chain_cons] at h
    obtain ⟨hc, haK, n, hna, hprev, hidx, hch2⟩ := h
    rw [← hc] at hna hch2 hp
    intro x hx
    rcases List.mem_cons.mp hx with hx | hx
    · subst hx
      refine ⟨n, hna, ?_, ?_⟩
      · obtain ⟨pn, hpn, hpnn⟩ := hp
        exact ⟨pn, by rw [hprev]; exact hpn, hpnn⟩
      · cases t with
        | nil =>
          obtain ⟨hq2, hb2⟩ := chain_nil.mp hch2
          obtain ⟨hn2, hhn2, hhp⟩ := hq
          refine ⟨hn2, ?_, ?_⟩
          · rw [← hb2, hb]
            exact hhn2
          · rw [hhp, hq2]
        | cons z t2 =>
          obtain ⟨z1, z2⟩ := z
          rw [chain_cons] at hch2
          obtain ⟨hz, -, m, hm, hmp, -, -⟩ := hch2
          exact ⟨m, hm, hmp⟩
    · exact ih hch2 ⟨n, hna, rfl⟩ x hx

theorem rep_coherent {s : DL} {l : List (Nat × Int)} (hrep : listRepB s l = true) :
    coherent s := by
  obtain ⟨hn, hhn, hch, ndl, ndk, dom, fresh⟩ := listRep_iff.mp hrep
  intro x n hx
  rcases dom x (hget_mem_keys hx) with hxK | hxl
  · subst hxK
    rw [hhn] at hx
    injection hx with he
    subst he
    constructor
    · rcases List.eq_nil_or_concat l with hl | ⟨l0, eu, hl⟩
      · subst hl
        obtain ⟨hq, hb⟩ := chain_nil.mp hch
        exact ⟨hn, by rw [hq]; exact hhn, hb.symm⟩
      · have hlne : l ≠ [] := by simp [hl]
        obtain ⟨qn, hqn, hqnn⟩ := chain_last hch hlne
        exact ⟨qn, hqn, hqnn⟩
    · cases l with
      | nil =>
        obtain ⟨hq, hb⟩ := chain_nil.mp hch
        exact ⟨hn, by rw [← hb]; exact hhn, hq⟩
      | cons z t =>
        obtain ⟨c, w⟩ := z
        rw [chain_cons] at hch
        obtain ⟨hc, -, m, hm, hmp, -, -⟩ := hch
        exact ⟨m, hm, hmp⟩
  · obtain ⟨z, hz, hzx⟩ := List.mem_map.mp hxl
    have hco := chain_coh hch ⟨hn, hhn, rfl⟩ rfl ⟨hn, hhn, rfl⟩ z hz
    obtain ⟨m, hm, hside1, hside2⟩ := hco
    rw [hzx] at hm
    rw [hx] at hm
    injection hm with he
    subst he
    rw [← hzx]
    exact ⟨hside1, hside2⟩

/-!
## `isEmpty`, `newList`, `insertAll`
-/

theorem isEmpty_spec {s : DL} {l : List (Nat × Int)} (hrep : listRepB s l = true) :
    ∃ hn, nodeAt s s.head = some hn ∧
      isEmpty s = some (decide (hn.next = s.head)) ∧
      ((hn.next = s.head) ↔ l = []) ∧
      (l = [] ↔ s.heap.length = 1) := by
  obtain ⟨hn, hhn, hch, -⟩ := listRep_iff.mp hrep
  refine ⟨hn, hhn, by simp [isEmpty, hhn], ?_, ?_⟩
  · constructor
    · intro hne
      cases l with
      | nil => rfl
      | cons z t =>
        obtain ⟨c, w⟩ := z
        rw [chain_cons] at hch
        obtain ⟨hc, hcK, -⟩ := hch
        exact absurd hne hcK
    · intro hl
      subst hl
      obtain ⟨hq, hb⟩ := chain_nil.mp hch
      exact hb.symm
  · have hlen := rep_length hrep
    constructor
    · intro hl; subst hl; simpa using hlen
    · intro hlen1
      rw [hlen1] at hlen
      have : l.length = 0 := by omega
      exact List.length_eq_zero.mp this

theorem newList_rep : listRepB newList [] = true := by decide

theorem insertAll_spec {s : DL} {l : List (Nat × Int)} (vs : List Int)
    (hrep : listRepB s l = true) :
    ∃ s2 l2, insertAll s vs = some s2 ∧ listRepB s2 l2 = true ∧
      l2.map Prod.snd = vs.reverse ++ l.map Prod.snd ∧
      s2.head = s.head := by
  induction vs generalizing s l with
  | nil => exact ⟨s, l, rfl, hrep, by simp, rfl⟩
  | cons v t ih =>
    obtain ⟨s2, hins, hrep2, hh2, -, -⟩ := insertEntry_spec hrep v
    obtain ⟨s3, l3, hall, hrep3, hvals, hh3⟩ := ih hrep2
    refine ⟨s3, l3, ?_, hrep3, ?_, by rw [hh3, hh2]⟩
    · simp only [insertAll, hins]
      exact hall
    · rw [hvals]
      simp

/-!
## Remaining helper lemmas
-/

theorem traverseFrom_state {s : DL} {a fuel : Nat} {out : List Int} {s2 : DL}
    (h : traverseFrom s a fuel = some (out, s2)) : s2 = s := by
  induction fuel generalizing a out s2 with
  | zero => simp [traverseFrom] at h
  | succ f ih =>
    rw [traverseFrom] at h
    by_cases he : isEnd s a
    · rw [if_pos he] at h
      injection h with h2
      exact (congrArg Prod.snd h2).symm
    · rw [if_neg he] at h
      cases hna : nodeAt s a with
      | none => rw [hna] at h; simp at h
      | some n =>
        rw [hna] at h
        simp only [Option.map_eq_some'] at h
        obtain ⟨p, hp, hp2⟩ := h
        obtain ⟨o2, s3⟩ := p
        have : s3 = s := ih hp
        rw [← this]
        exact (congrArg Prod.snd hp2).symm

theorem eq_singleton_of_forall {ks : List Nat} {a : Nat}
    (hall : ∀ k ∈ ks, k = a) (hmem : a ∈ ks) (hnd : ks.Nodup) : ks = [a] := by
  cases ks with
  | nil => simp at hmem
  | cons b t =>
    have hb : b = a := hall b (by simp)
    subst hb
    cases t with
    | nil => rfl
    | cons c t2 =>
      have hc : c = b := hall c (by simp)
      rw [List.nodup_cons] at hnd
      exact absurd (by simp [← hc] : b ∈ c :: t2) hnd.1

/-!
## The claims
-/

/-- Claim C1: every List operation (`insertEntry`, `removeEntry`, `cleanList`,
`traverseList`) preserves Invariant 1: started on a valid list state, each
operation succeeds and leaves a state whose sentinel and live nodes again form
a single circular doubly linked chain in which every node `n` satisfies
`n.prev.next = n` and `n.next.prev = n` (`coherent`). -/
theorem C1_invariant_preservation (s : DL) (v : Int) (h : ValidDL s) :
    (∃ s2, insertEntry s v = some s2 ∧ ValidDL s2 ∧ coherent s2) ∧
    (∃ s2 printed, removeEntry s v = some (s2, printed) ∧ ValidDL s2 ∧ coherent s2) ∧
    (∃ s2, cleanList s = some s2 ∧ ValidDL s2 ∧ coherent s2) ∧
    (∃ out, traverseList s = some (out, s) ∧ ValidDL s ∧ coherent s) := by
  obtain ⟨l, hrep⟩ := h
  refine ⟨?_, ?_, ?_, ?_⟩
  · obtain ⟨s2, h1, h2, -⟩ := insertEntry_spec hrep v
    exact ⟨s2, h1, ⟨_, h2⟩, rep_coherent h2⟩
  · by_cases hm : v ∈ l.map Prod.snd
    · obtain ⟨s2, h1, h2, -⟩ := removeEntry_found hrep hm
      exact ⟨s2, false, h1, ⟨_, h2⟩, rep_coherent h2⟩
    · exact ⟨s, true, removeEntry_notfound hrep hm, ⟨l, hrep⟩, rep_coherent hrep⟩
  · obtain ⟨s2, h1, h2, -⟩ := cleanList_spec hrep
    exact ⟨s2, h1, ⟨_, h2⟩, rep_coherent h2⟩
  · exact ⟨l.map Prod.snd, traverseList_spec hrep, ⟨l, hrep⟩, rep_coherent hrep⟩

theorem C1_invariant_preservation_witness :
    ValidDL newList ∧
    ((∃ s2, insertEntry newList 5 = some s2 ∧ ValidDL s2 ∧ coherent s2) ∧
     (∃ s2 printed, removeEntry newList 5 = some (s2, printed) ∧ ValidDL s2 ∧ coherent s2) ∧
     (∃ s2, cleanList newList = some s2 ∧ ValidDL s2 ∧ coherent s2) ∧
     (∃ out, traverseList newList = some (out, newList) ∧ ValidDL newList ∧ coherent newList)) :=
  ⟨⟨[], newList_rep⟩, C1_invariant_preservation newList 5 ⟨[], newList_rep⟩⟩

/-- Claim C2: starting from an empty list, after N calls of `insertEntry`
with values v1..vN and no removes, the traversal enumerates exactly N values,
in reverse order of insertion. -/
theorem C2_insert_traverse_reverse (vs : List Int) :
    ∃ s2, insertAll newList vs = some s2 ∧
      traverseVals s2 = some vs.reverse ∧
      (∀ out, traverseVals s2 = some out → out.length = vs.length) := by
  obtain ⟨s2, l2, hall, hrep2, hvals, -⟩ := insertAll_spec vs newList_rep
  have ht := traverseList_spec hrep2
  have hv : traverseVals s2 = some vs.reverse := by
    simp only [traverseVals, ht, Option.map_some']
    rw [hvals]
    simp
  refine ⟨s2, hall, hv, ?_⟩
  intro out hout
  rw [hv] at hout
  injection hout with he
  rw [← he]
  simp

/-- Claim C3: when value v occurs in the list, `removeEntry v` removes exactly
one node, the occurrence nearest the head: the new traversal is the old one
with the first occurrence of v erased, and the traversal length drops by one. -/
theorem C3_remove_first_match (s : DL) (l : List (Nat × Int)) (v : Int)
    (hrep : listRepB s l = true) (hm : v ∈ l.map Prod.snd) :
    ∃ s2, removeEntry s v = some (s2, false) ∧
      traverseVals s = some (l.map Prod.snd) ∧
      traverseVals s2 = some ((l.map Prod.snd).erase v) ∧
      ((l.map Prod.snd).erase v).length + 1 = (l.map Prod.snd).length := by
  obtain ⟨s2, hrem, hrep2, -, -, -⟩ := removeEntry_found hrep hm
  refine ⟨s2, hrem, ?_, ?_, ?_⟩
  · simp [traverseVals, traverseList_spec hrep]
  · simp only [traverseVals, traverseList_spec hrep2, Option.map_some']
    rw [removeFirstP_snd]
  · rw [List.length_erase_of_mem hm]
    have : 0 < (l.map Prod.snd).length := List.length_pos.mpr (by
      rintro hempty
      rw [hempty] at hm
      simp at hm)
    omega

theorem C3_remove_first_match_witness :
    listRepB exampleDL exampleChain = true ∧ (2 : Int) ∈ exampleChain.map Prod.snd ∧
    (∃ s2, removeEntry exampleDL 2 = some (s2, false) ∧
      traverseVals exampleDL = some (exampleChain.map Prod.snd) ∧
      traverseVals s2 = some ((exampleChain.map Prod.snd).erase 2) ∧
      ((exampleChain.map Prod.snd).erase 2).length + 1
        = (exampleChain.map Prod.snd).length) :=
  ⟨by decide, by decide,
    C3_remove_first_match exampleDL exampleChain 2 (by decide) (by decide)⟩

/-- Claim C4: when value v does not occur, `removeEntry v` returns the list
state completely unchanged (the very same state) and reports the absence via
the not-found diagnostic; no failure is signalled to the caller. -/
theorem C4_remove_absent (s : DL) (l : List (Nat × Int)) (v : Int)
    (hrep : listRepB s l = true) (hnm : v ∉ l.map Prod.snd) :
    removeEntry s v = some (s, true) :=
  removeEntry_notfound hrep hnm

theorem C4_remove_absent_witness :
    listRepB exampleDL exampleChain = true ∧ (7 : Int) ∉ exampleChain.map Prod.snd ∧
    removeEntry exampleDL 7 = some (exampleDL, true) :=
  ⟨by decide, by decide, C4_remove_absent exampleDL exampleChain 7 (by decide) (by decide)⟩

/-- Claim C5: `cleanList` empties any valid list: afterwards `isEmpty` is
true, a traversal enumerates zero values, the heap holds exactly the sentinel
(every user node was deallocated) and the sentinel is self-linked. -/
theorem C5_clean (s : DL) (l : List (Nat × Int)) (hrep : listRepB s l = true) :
    ∃ s2, cleanList s = some s2 ∧
      isEmpty s2 = some true ∧
      traverseVals s2 = some [] ∧
      keysOf s2.heap = [s.head] ∧
      (∃ hn2, nodeAt s2 s2.head = some hn2 ∧ hn2.next = s2.head ∧ hn2.prev = s2.head) := by
  obtain ⟨s2, hclean, hrep2, hh2, -⟩ := cleanList_spec hrep
  obtain ⟨hn2, hhn2, hch2, -, ndk2, dom2, -⟩ := listRep_iff.mp hrep2
  obtain ⟨hq2, hb2⟩ := chain_nil.mp hch2
  refine ⟨s2, hclean, ?_, ?_, ?_, ⟨hn2, hhn2, hb2.symm, hq2⟩⟩
  · simp [isEmpty, hhn2, ← hb2]
  · simp [traverseVals, traverseList_spec hrep2]
  · rw [← hh2]
    refine eq_singleton_of_forall ?_ (hget_mem_keys hhn2) ndk2
    intro k hk
    rcases dom2 k hk with hk2 | hk2
    · exact hk2
    · simp at hk2

theorem C5_clean_witness :
    listRepB exampleDL exampleChain = true ∧
    (∃ s2, cleanList exampleDL = some s2 ∧
      isEmpty s2 = some true ∧
      traverseVals s2 = some [] ∧
      keysOf s2.heap = [exampleDL.head] ∧
      (∃ hn2, nodeAt s2 s2.head = some hn2 ∧ hn2.next = s2.head ∧ hn2.prev = s2.head)) :=
  ⟨by decide, C5_clean exampleDL exampleChain (by decide)⟩

/-- Claim C6: `insertEntry v` immediately followed by `removeEntry v` restores
the pre-insert traversal content and length exactly, for every valid state,
including states in which v already occurs. -/
theorem C6_roundtrip (s : DL) (l : List (Nat × Int)) (v : Int)
    (hrep : listRepB s l = true) :
    ∃ s1 s2, insertEntry s v = some s1 ∧ removeEntry s1 v = some (s2, false) ∧
      traverseVals s2 = traverseVals s ∧
      traverseVals s2 = some (l.map Prod.snd) ∧
      s2.heap.length = s.heap.length := by
  obtain ⟨s1, hins, hrep1, -, -, hlen1⟩ := insertEntry_spec hrep v
  have hm : v ∈ ((s.nextAlloc, v) :: l).map Prod.snd := by simp
  obtain ⟨s2, hrem, hrep2, -, -, hlen2⟩ := removeEntry_found hrep1 hm
  have hfirst : removeFirstP v ((s.nextAlloc, v) :: l) = l := by simp [removeFirstP]
  rw [hfirst] at hrep2
  have hv2 : traverseVals s2 = some (l.map Prod.snd) := by
    simp [traverseVals, traverseList_spec hrep2]
  have hv : traverseVals s = some (l.map Prod.snd) := by
    simp [traverseVals, traverseList_spec hrep]
  exact ⟨s1, s2, hins, hrem, by rw [hv2, hv], hv2, by omega⟩

theorem C6_roundtrip_witness :
    listRepB exampleDL exampleChain = true ∧
    (∃ s1 s2, insertEntry exampleDL 8 = some s1 ∧ removeEntry s1 8 = some (s2, false) ∧
      traverseVals s2 = traverseVals exampleDL ∧
      traverseVals s2 = some (exampleChain.map Prod.snd) ∧
      s2.heap.length = exampleDL.heap.length) :=
  ⟨by decide, C6_roundtrip exampleDL exampleChain 8 (by decide)⟩

/-- Claim C7: `isEmpty` returns true iff the sentinel's next pointer refers to
the sentinel itself, and on every valid list state this holds exactly when the
list contains zero live user nodes (heap of size one: the sentinel alone, and
an empty chain). `isEmpty` is a pure query: it is a function of the state
returning only a Boolean. -/
theorem C7_isEmpty (s : DL) (l : List (Nat × Int)) (hrep : listRepB s l = true) :
    ∃ hn, nodeAt s s.head = some hn ∧
      isEmpty s = some (decide (hn.next = s.head)) ∧
      (isEmpty s = some true ↔ hn.next = s.head) ∧
      (isEmpty s = some true ↔ l = []) ∧
      (isEmpty s = some true ↔ s.heap.length = 1) := by
  obtain ⟨hn, hhn, hemp, hiff1, hiff2⟩ := isEmpty_spec hrep
  have hkey : isEmpty s = some true ↔ hn.next = s.head := by
    rw [hemp]
    constructor
    · intro h2
      injection h2 with h3
      exact of_decide_eq_true h3
    · intro h2
      rw [decide_eq_true h2]
  refine ⟨hn, hhn, hemp, hkey, ?_, ?_⟩
  · rw [hkey]; exact hiff1
  · rw [hkey, hiff1]; exact hiff2

theorem C7_isEmpty_witness :
    listRepB exampleDL exampleChain = true ∧
    (∃ hn, nodeAt exampleDL exampleDL.head = some hn ∧
      isEmpty exampleDL = some (decide (hn.next = exampleDL.head)) ∧
      (isEmpty exampleDL = some true ↔ hn.next = exampleDL.head) ∧
      (isEmpty exampleDL = some true ↔ exampleChain = []) ∧
      (isEmpty exampleDL = some true ↔ exampleDL.heap.length = 1)) :=
  ⟨by decide, C7_isEmpty exampleDL exampleChain (by decide)⟩

/-- Claim C8: `traverseList` does not mutate the list: it hands back exactly
the state it was given (this holds for the loop at every starting point and
fuel), and a second call on that state enumerates the same value sequence, so
the enumeration is restartable. -/
theorem C8_traverse_pure (s : DL) (l : List (Nat × Int)) (hrep : listRepB s l = true) :
    (∀ a fuel out s2, traverseFrom s a fuel = some (out, s2) → s2 = s) ∧
    (∃ out s2, traverseList s = some (out, s2) ∧ s2 = s ∧
      traverseList s2 = some (out, s2)) := by
  refine ⟨fun a fuel out s2 h2 => traverseFrom_state h2, ?_⟩
  exact ⟨l.map Prod.snd, s, traverseList_spec hrep, rfl, traverseList_spec hrep⟩

theorem C8_traverse_pure_witness :
    listRepB exampleDL exampleChain = true ∧
    ((∀ a fuel out s2, traverseFrom exampleDL a fuel = some (out, s2) → s2 = exampleDL) ∧
     (∃ out s2, traverseList exampleDL = some (out, s2) ∧ s2 = exampleDL ∧
       traverseList s2 = some (out, s2))) :=
  ⟨by decide, C8_traverse_pure exampleDL exampleChain (by decide)⟩

/-- Claim C9: calling `removeEntry` on an empty list is safe at the public
interface: the scan starts with `cur` equal to the sentinel, so the loop body
never executes, no user node is read or written, the state is returned
unchanged, and the not-found diagnostic is reported. -/
theorem C9_remove_empty (s : DL) (v : Int) (hrep : listRepB s [] = true) :
    removeEntry s v = some (s, true) ∧
    (∃ hn, nodeAt s s.head = some hn ∧ hn.next = s.head ∧
      removeLoop s v s.head hn.next (s.heap.length + 1) = some (s, true)) := by
  obtain ⟨hn, hhn, hch, -⟩ := listRep_iff.mp hrep
  obtain ⟨hq, hb⟩ := chain_nil.mp hch
  refine ⟨removeEntry_notfound hrep (by simp), hn, hhn, hb.symm, ?_⟩
  have := removeEntry_notfound hrep (show v ∉ ([] : List (Nat × Int)).map Prod.snd by simp)
  simp only [removeEntry, hhn] at this
  exact this

theorem C9_remove_empty_witness :
    listRepB newList [] = true ∧
    (removeEntry newList 7 = some (newList, true) ∧
     (∃ hn, nodeAt newList newList.head = some hn ∧ hn.next = newList.head ∧
       removeLoop newList 7 newList.head hn.next (newList.heap.length + 1)
         = some (newList, true))) :=
  ⟨newList_rep, C9_remove_empty newList 7 newList_rep⟩

/-- Claim C10: on every valid list state the scan loops of `removeEntry`,
`traverseList` and `cleanList` terminate — with fuel of one step per allocated
node plus one, no operation runs out of fuel or fails: every public operation
returns a result. -/
theorem C10_termination (s : DL) (v : Int) (h : ValidDL s) :
    (insertEntry s v).isSome ∧ (removeEntry s v).isSome ∧
    (cleanList s).isSome ∧ (traverseList s).isSome ∧ (isEmpty s).isSome := by
  obtain ⟨l, hrep⟩ := h
  refine ⟨?_, ?_, ?_, ?_, ?_⟩
  · obtain ⟨s2, h1, -⟩ := insertEntry_spec hrep v
    rw [h1]; rfl
  · by_cases hm : v ∈ l.map Prod.snd
    · obtain ⟨s2, h1, -⟩ := removeEntry_found hrep hm
      rw [h1]; rfl
    · rw [removeEntry_notfound hrep hm]; rfl
  · obtain ⟨s2, h1, -⟩ := cleanList_spec hrep
    rw [h1]; rfl
  · rw [traverseList_spec hrep]; rfl
  · obtain ⟨hn, hhn, -⟩ := listRep_iff.mp hrep
    simp [isEmpty, hhn]

theorem C10_termination_witness :
    ValidDL exampleDL ∧
    ((insertEntry exampleDL 9).isSome ∧ (removeEntry exampleDL 9).isSome ∧
     (cleanList exampleDL).isSome ∧ (traverseList exampleDL).isSome ∧
     (isEmpty exampleDL).isSome) :=
  ⟨⟨exampleChain, by decide⟩, C10_termination exampleDL 9 ⟨exampleChain, by decide⟩⟩
